import Mathlib

/-!
Verification of the `hyper_serde` adapter layer (`src/lib.rs`): wrappers and
convenience functions making Hyper's HTTP value types work with Serde.

The serialization framework's data model is embedded shallowly as a stream of
tokens (the shape used by the crate's own `serde_test`-based tests): encoders
map a value to a token list, decoders consume a prefix of a token list and
return the decoded value together with the unconsumed suffix.

Strings are modelled as lists of characters.  The external HTTP value types
(hyper 0.9's `Method`, `Headers`, `RawStatus`, the `mime` crate's `Mime`, and
the `cookie` crate's `Cookie`) are not part of this repository; they are
modelled from the spec where the spec describes them (each such definition is
marked `Modelled from the spec:`).
-/

namespace HyperSerde

/-- Strings, modelled as lists of characters. -/
abbrev Str := List Char

/-- The serialization framework's token stream (the shape of serde's data
model, as exercised by the crate's `serde_test` tokens): strings, integers,
unit, maps with an optional length hint and separators, sequences, tuples. -/
inductive Token
  | str (s : Str)
  | int (n : Int)
  | unit
  | mapStart (len : Option Nat)
  | mapSep
  | mapEnd
  | seqStart (len : Option Nat)
  | seqSep
  | seqEnd
  | tupleStart (n : Nat)
  | tupleSep
  | tupleEnd
deriving DecidableEq

/-- Decode-side errors.  Modelled from the spec: the error taxonomy of §7 —
`invalidValue` for an unparsable value (serde's `Error::invalid_value`,
carrying a message), `custom` for `Error::custom` messages, and a single
`invalidType` covering the framework's own token-shape mismatch errors. -/
inductive Err
  | invalidValue (msg : Str)
  | custom (msg : Str)
  | invalidType
deriving DecidableEq

/-! ### Character-list parsing helpers -/

/-- The longest prefix not containing `c`. -/
def takeUntil (c : Char) (s : Str) : Str := s.takeWhile (fun a => a ≠ c)

/-- The rest of the string from the first occurrence of `c` (inclusive). -/
def dropUntil (c : Char) (s : Str) : Str := s.dropWhile (fun a => a ≠ c)

theorem takeUntil_append {c : Char} {xs : Str} (ys : Str) (h : c ∉ xs) :
    takeUntil c (xs ++ c :: ys) = xs := by
  induction xs with
  | nil => simp [takeUntil]
  | cons x xs ih =>
    simp only [List.mem_cons, not_or] at h
    have hx : x ≠ c := fun hxc => h.1 hxc.symm
    have htail := ih h.2
    simp only [takeUntil] at htail ⊢
    rw [List.cons_append, List.takeWhile_cons, if_pos (decide_eq_true hx), htail]

theorem dropUntil_append {c : Char} {xs : Str} (ys : Str) (h : c ∉ xs) :
    dropUntil c (xs ++ c :: ys) = c :: ys := by
  induction xs with
  | nil => simp [dropUntil]
  | cons x xs ih =>
    simp only [List.mem_cons, not_or] at h
    have hx : x ≠ c := fun hxc => h.1 hxc.symm
    have htail := ih h.2
    simp only [dropUntil] at htail ⊢
    rw [List.cons_append, List.dropWhile_cons, if_pos (decide_eq_true hx), htail]

theorem takeUntil_all {c : Char} {xs : Str} (h : c ∉ xs) : takeUntil c xs = xs := by
  induction xs with
  | nil => simp [takeUntil]
  | cons x xs ih =>
    simp only [List.mem_cons, not_or] at h
    have hx : x ≠ c := fun hxc => h.1 hxc.symm
    have htail := ih h.2
    simp only [takeUntil] at htail ⊢
    rw [List.takeWhile_cons, if_pos (decide_eq_true hx), htail]

theorem dropUntil_all {c : Char} {xs : Str} (h : c ∉ xs) : dropUntil c xs = [] := by
  induction xs with
  | nil => simp [dropUntil]
  | cons x xs ih =>
    simp only [List.mem_cons, not_or] at h
    have hx : x ≠ c := fun hxc => h.1 hxc.symm
    have htail := ih h.2
    simp only [dropUntil] at htail ⊢
    rw [List.dropWhile_cons, if_pos (decide_eq_true hx), htail]

/-- `takeUntil` across an append whose second part is empty or starts with `c`. -/
theorem takeUntil_append_head {c : Char} {xs : Str} (ys : Str) (h : c ∉ xs)
    (hy : ys = [] ∨ ∃ zs, ys = c :: zs) : takeUntil c (xs ++ ys) = xs := by
  rcases hy with rfl | ⟨zs, rfl⟩
  · rw [List.append_nil]; exact takeUntil_all h
  · exact takeUntil_append zs h

/-- `dropUntil` across an append whose second part is empty or starts with `c`. -/
theorem dropUntil_append_head {c : Char} {xs : Str} (ys : Str) (h : c ∉ xs)
    (hy : ys = [] ∨ ∃ zs, ys = c :: zs) : dropUntil c (xs ++ ys) = ys := by
  rcases hy with rfl | ⟨zs, rfl⟩
  · rw [List.append_nil]; exact dropUntil_all h
  · exact dropUntil_append zs h

theorem dropUntil_length_le (c : Char) (s : Str) : (dropUntil c s).length ≤ s.length := by
  induction s with
  | nil => simp [dropUntil]
  | cons x xs ih =>
    simp only [dropUntil, List.dropWhile_cons] at *
    split
    · exact Nat.le_trans ih (by simp)
    · simp

/-! ### Decimal digit strings -/

/-- One decimal digit as a character. -/
def digitToChar : Nat → Char
  | 0 => '0' | 1 => '1' | 2 => '2' | 3 => '3' | 4 => '4'
  | 5 => '5' | 6 => '6' | 7 => '7' | 8 => '8' | _ => '9'

/-- A decimal digit character back to its value. -/
def charToDigit (c : Char) : Nat := c.toNat - 48

/-- Decimal representation of a natural number, most significant digit first. -/
def natToChars (n : Nat) : Str :=
  if n = 0 then ['0'] else ((Nat.digits 10 n).map digitToChar).reverse

/-- Parse a non-empty all-digit string as a natural number. -/
def charsToNat? (s : Str) : Option Nat :=
  if s ≠ [] ∧ s.all Char.isDigit then
    some (Nat.ofDigits 10 ((s.map charToDigit).reverse))
  else none

theorem charToDigit_digitToChar {d : Nat} (h : d < 10) :
    charToDigit (digitToChar d) = d := by
  interval_cases d <;> decide

theorem isDigit_digitToChar (d : Nat) : (digitToChar d).isDigit = true := by
  unfold digitToChar
  split <;> decide

theorem charsToNat?_natToChars (n : Nat) : charsToNat? (natToChars n) = some n := by
  by_cases h0 : n = 0
  · subst h0; decide
  · unfold natToChars charsToNat?
    rw [if_neg h0]
    have hne : Nat.digits 10 n ≠ [] := Nat.digits_ne_nil_iff_ne_zero.mpr h0
    have hd : ∀ d ∈ Nat.digits 10 n, d < 10 := fun _ hd => Nat.digits_lt_base (by norm_num) hd
    rw [if_pos]
    · congr 1
      rw [List.map_reverse, List.reverse_reverse, List.map_map]
      have : (Nat.digits 10 n).map (charToDigit ∘ digitToChar) = Nat.digits 10 n := by
        conv_rhs => rw [← List.map_id (Nat.digits 10 n)]
        apply List.map_congr_left
        intro d hdm
        exact charToDigit_digitToChar (hd d hdm)
      rw [this, Nat.ofDigits_digits]
    · constructor
      · simp [hne]
      · rw [List.all_eq_true]
        intro c hc
        rw [List.mem_reverse, List.mem_map] at hc
        obtain ⟨d, _, rfl⟩ := hc
        exact isDigit_digitToChar d

theorem mem_natToChars_isDigit {c : Char} {n : Nat} (h : c ∈ natToChars n) :
    c.isDigit = true := by
  unfold natToChars at h
  split at h
  · simp only [List.mem_singleton] at h
    subst h; decide
  · rw [List.mem_reverse, List.mem_map] at h
    obtain ⟨d, _, rfl⟩ := h
    exact isDigit_digitToChar d

theorem semicolon_not_mem_natToChars (n : Nat) : ';' ∉ natToChars n := by
  intro h
  have := mem_natToChars_isDigit h
  simp at this

/-! ### The HTTP method type

Modelled from the spec (§4.1): the underlying method type has the fixed set of
standard HTTP method names plus extension methods carrying an arbitrary token;
its parser accepts every standard name and every non-empty token (mapping
unknown tokens to an extension method) and rejects the empty string with its
parse error message, and its canonical textual name is the standard name
respectively the extension token. -/

inductive Method
  | options | get | post | put | delete | head | trace | connect | patch
  | extension (s : Str)
deriving DecidableEq

/-- The canonical textual name of a method (`Method::as_ref`). -/
def methodAsRef : Method → Str
  | .options => "OPTIONS".data
  | .get => "GET".data
  | .post => "POST".data
  | .put => "PUT".data
  | .delete => "DELETE".data
  | .head => "HEAD".data
  | .trace => "TRACE".data
  | .connect => "CONNECT".data
  | .patch => "PATCH".data
  | .extension s => s

/-- The standard method names and their methods. -/
def standardMethods : List (Str × Method) :=
  [("OPTIONS".data, .options), ("GET".data, .get), ("POST".data, .post),
   ("PUT".data, .put), ("DELETE".data, .delete), ("HEAD".data, .head),
   ("TRACE".data, .trace), ("CONNECT".data, .connect), ("PATCH".data, .patch)]

/-- The message of the underlying method parse error. -/
def invalidMethodMsg : Str := "Invalid Method specified".data

/-- Modelled from the spec: the underlying method type's `FromStr` parser —
standard names map to their methods, any other non-empty token is an extension
method, the empty string is rejected with the parse error. -/
def methodParse (s : Str) : Except Str Method :=
  if s = [] then .error invalidMethodMsg
  else
    match standardMethods.find? (fun p => p.1 = s) with
    | some p => .ok p.2
    | none => .ok (.extension s)

/-- A method value is canonical when an extension token is non-empty and not a
standard name (exactly the extension methods the parser itself produces). -/
def methodWF : Method → Prop
  | .extension s => s ≠ [] ∧ ∀ p ∈ standardMethods, p.1 ≠ s
  | _ => True

instance : DecidablePred methodWF := by
  intro m
  cases m <;> simp only [methodWF] <;> infer_instance

theorem methodParse_asRef {m : Method} (h : methodWF m) :
    methodParse (methodAsRef m) = .ok m := by
  cases m
  case extension s =>
    obtain ⟨hne, hstd⟩ := h
    unfold methodParse methodAsRef
    rw [if_neg hne, List.find?_eq_none.mpr]
    intro p hp
    simpa using hstd p hp
  all_goals rfl

/-! ### The MIME type

Modelled from the spec (§4.3, §2): a MIME value has a top-level type, a
subtype and a parameter list, its textual form is
`type/subtype` followed by `; key=value` for each parameter, and its parser
inverts that form (failing when the `/` is missing or a parameter lacks `=`). -/

structure Mime where
  top : Str
  sub : Str
  params : List (Str × Str)
deriving DecidableEq

/-- The content-type header value: a structural wrapper around a MIME value
(hyper's `ContentType(pub Mime)`). -/
structure ContentType where
  mime : Mime
deriving DecidableEq

/-- The `; key=value` parameter part of a MIME value's textual form. -/
def mimeParamsFormat : List (Str × Str) → Str
  | [] => []
  | (k, v) :: ps => ';' :: ' ' :: (k ++ '=' :: v) ++ mimeParamsFormat ps

/-- The textual form of a MIME value (`type/subtype[; key=value]*`). -/
def mimeFormat (m : Mime) : Str :=
  m.top ++ '/' :: (m.sub ++ mimeParamsFormat m.params)

/-- Modelled from the spec: parser of the MIME parameter list.  Each
parameter is introduced by `"; "`; its key runs to the `=` (whose absence is a
parse failure) and its value to the next `;`. -/
def mimeParamsParse : Str → Option (List (Str × Str))
  | [] => some []
  | ';' :: ' ' :: rest =>
    let k := takeUntil '=' rest
    if he : dropUntil '=' rest = [] then none
    else
      let rest' := (dropUntil '=' rest).tail
      let v := takeUntil ';' rest'
      (mimeParamsParse (dropUntil ';' rest')).map (fun ps => (k, v) :: ps)
  | _ => none
termination_by s => s.length
decreasing_by
  have h1 : (dropUntil '=' rest).length ≤ rest.length := dropUntil_length_le _ _
  have h2 : (dropUntil ';' (dropUntil '=' rest).tail).length ≤ (dropUntil '=' rest).tail.length :=
    dropUntil_length_le _ _
  have h3 : 0 < (dropUntil '=' rest).length := List.length_pos.mpr he
  simp only [List.length_tail] at h2
  simp only [List.length_cons]
  omega

/-- Modelled from the spec: the MIME parser (`Mime::from_str`). -/
def mimeParse (s : Str) : Option Mime :=
  let top := takeUntil '/' s
  match dropUntil '/' s with
  | '/' :: rest =>
    let sub := takeUntil ';' rest
    (mimeParamsParse (dropUntil ';' rest)).map (fun ps => ⟨top, sub, ps⟩)
  | _ => none

/-- Well-formedness of a MIME value: no component contains the delimiter that
ends it in the textual form. -/
def mimeWF (m : Mime) : Prop :=
  '/' ∉ m.top ∧ ';' ∉ m.sub ∧ ∀ p ∈ m.params, '=' ∉ p.1 ∧ ';' ∉ p.2

instance : DecidablePred mimeWF := fun _ => by unfold mimeWF; infer_instance

theorem mimeParamsFormat_shape (ps : List (Str × Str)) :
    mimeParamsFormat ps = [] ∨ ∃ zs, mimeParamsFormat ps = ';' :: zs := by
  cases ps with
  | nil => left; rfl
  | cons p ps =>
    right
    refine ⟨' ' :: ((p.1 ++ '=' :: p.2) ++ mimeParamsFormat ps), ?_⟩
    rw [mimeParamsFormat]
    simp

theorem mimeParamsParse_format {ps : List (Str × Str)}
    (h : ∀ p ∈ ps, '=' ∉ p.1 ∧ ';' ∉ p.2) :
    mimeParamsParse (mimeParamsFormat ps) = some ps := by
  induction ps with
  | nil => simp [mimeParamsFormat, mimeParamsParse]
  | cons p ps ih =>
    obtain ⟨k, v⟩ := p
    obtain ⟨hk, hv⟩ := h (k, v) (by simp)
    have hrec : ∀ q ∈ ps, '=' ∉ q.1 ∧ ';' ∉ q.2 := fun q hq => h q (by simp [hq])
    have hshape := mimeParamsFormat_shape ps
    have hassoc : (k ++ '=' :: v) ++ mimeParamsFormat ps
        = k ++ '=' :: (v ++ mimeParamsFormat ps) := by simp
    simp only [mimeParamsFormat, List.cons_append]
    rw [hassoc]
    simp only [mimeParamsParse]
    rw [dropUntil_append _ hk, takeUntil_append _ hk]
    rw [dif_neg (List.cons_ne_nil _ _)]
    simp only [List.tail_cons]
    rw [takeUntil_append_head _ hv hshape, dropUntil_append_head _ hv hshape, ih hrec]
    rfl

theorem mimeParse_format {m : Mime} (h : mimeWF m) : mimeParse (mimeFormat m) = some m := by
  obtain ⟨top, sub, ps⟩ := m
  obtain ⟨htop, hsub, hps⟩ := h
  have hshape := mimeParamsFormat_shape ps
  unfold mimeFormat mimeParse
  simp only []
  rw [takeUntil_append _ htop, dropUntil_append _ htop]
  simp only []
  rw [takeUntil_append_head _ hsub hshape, dropUntil_append_head _ hsub hshape,
    mimeParamsParse_format hps]
  rfl

/-! ### The cookie type

Modelled from the spec (§4.5, §8): a cookie has a name, a value, secure and
http-only flags, and optional path, domain and max-age attributes.  Its
canonical textual representation is `name=value` followed by the set
attributes in the fixed order Secure, HttpOnly, Path, Domain, Max-Age, each
introduced by `"; "`; its parser splits that representation back apart,
rejecting inputs without a `name=value` part or with a malformed attribute. -/

structure Cookie where
  name : Str
  value : Str
  secure : Bool
  httponly : Bool
  path : Option Str
  domain : Option Str
  maxAge : Option Nat
deriving DecidableEq

/-- The `Secure` attribute keyword. -/
def secureChars : Str := ['S', 'e', 'c', 'u', 'r', 'e']

/-- The `HttpOnly` attribute keyword. -/
def httponlyChars : Str := ['H', 't', 't', 'p', 'O', 'n', 'l', 'y']

/-- The `Path` attribute keyword. -/
def pathChars : Str := ['P', 'a', 't', 'h']

/-- The `Domain` attribute keyword. -/
def domainChars : Str := ['D', 'o', 'm', 'a', 'i', 'n']

/-- The `Max-Age` attribute keyword. -/
def maxAgeChars : Str := ['M', 'a', 'x', '-', 'A', 'g', 'e']

/-- A flag attribute's segments: the bare keyword when the flag is set. -/
def boolAttr (key : Str) : Bool → List Str
  | true => [key]
  | false => []

/-- A valued attribute's segments: `key=value` when the value is present. -/
def optAttr (key : Str) : Option Str → List Str
  | some v => [key ++ '=' :: v]
  | none => []

/-- The attribute segments of a cookie's textual form, in the formatter's
fixed order. -/
def cookieAttrs (c : Cookie) : List Str :=
  boolAttr secureChars c.secure ++ boolAttr httponlyChars c.httponly ++
  optAttr pathChars c.path ++ optAttr domainChars c.domain ++
  optAttr maxAgeChars (c.maxAge.map natToChars)

/-- Join attribute segments, each introduced by `"; "`. -/
def joinAttrs : List Str → Str
  | [] => []
  | a :: rest => ';' :: ' ' :: (a ++ joinAttrs rest)

/-- Modelled from the spec: the cookie type's own formatter
(`Cookie::to_string`), producing the canonical `Set-Cookie`-style string. -/
def cookieToString (c : Cookie) : Str :=
  c.name ++ '=' :: (c.value ++ joinAttrs (cookieAttrs c))

/-- Interpret one attribute segment, updating the cookie being built; fails on
an unknown attribute or a non-numeric max-age. -/
def cookieApplyAttr (c : Cookie) (attr : Str) : Option Cookie :=
  if attr = secureChars then some { c with secure := true }
  else if attr = httponlyChars then some { c with httponly := true }
  else
    let k := takeUntil '=' attr
    if dropUntil '=' attr = [] then none
    else
      let v := (dropUntil '=' attr).tail
      if k = pathChars then some { c with path := some v }
      else if k = domainChars then some { c with domain := some v }
      else if k = maxAgeChars then (charsToNat? v).map (fun n => { c with maxAge := some n })
      else none

/-- Modelled from the spec: the attribute part of the cookie parser. -/
def cookieParseAttrs : Str → Cookie → Option Cookie
  | [], c => some c
  | ';' :: ' ' :: rest, c =>
    match cookieApplyAttr c (takeUntil ';' rest) with
    | some c' => cookieParseAttrs (dropUntil ';' rest) c'
    | none => none
  | _, _ => none
termination_by s _ => s.length
decreasing_by
  have := dropUntil_length_le ';' rest
  simp only [List.length_cons]
  omega

/-- Modelled from the spec: the cookie type's own parser (`Cookie::parse`),
reading `name=value` and then the attribute segments. -/
def cookieParse (s : Str) : Option Cookie :=
  let name := takeUntil '=' s
  if dropUntil '=' s = [] then none
  else
    let rest := (dropUntil '=' s).tail
    let value := takeUntil ';' rest
    cookieParseAttrs (dropUntil ';' rest)
      { name := name, value := value, secure := false, httponly := false,
        path := none, domain := none, maxAge := none }

/-- No semicolon in an optional attribute value. -/
def optNoSemi : Option Str → Prop
  | some p => ';' ∉ p
  | none => True

instance : ∀ o : Option Str, Decidable (optNoSemi o)
  | some p => inferInstanceAs (Decidable (';' ∉ p))
  | none => inferInstanceAs (Decidable True)

/-- Well-formedness of a cookie value: the name contains no `=` and neither
the value nor the path and domain attributes contain a `;`. -/
def cookieWF (c : Cookie) : Prop :=
  '=' ∉ c.name ∧ ';' ∉ c.value ∧ optNoSemi c.path ∧ optNoSemi c.domain

instance : DecidablePred cookieWF := fun c =>
  inferInstanceAs (Decidable ('=' ∉ c.name ∧ ';' ∉ c.value ∧ optNoSemi c.path ∧ optNoSemi c.domain))

theorem joinAttrs_shape (l : List Str) :
    joinAttrs l = [] ∨ ∃ zs, joinAttrs l = ';' :: zs := by
  cases l with
  | nil => left; rfl
  | cons a rest => right; exact ⟨' ' :: (a ++ joinAttrs rest), rfl⟩

theorem mem_boolAttr {a key : Str} {b : Bool} (h : a ∈ boolAttr key b) : a = key := by
  cases b <;> simp [boolAttr] at h
  exact h

theorem mem_optAttr {a key : Str} {o : Option Str} (h : a ∈ optAttr key o) :
    ∃ v, o = some v ∧ a = key ++ '=' :: v := by
  cases o <;> simp [optAttr] at h
  exact ⟨_, rfl, h⟩

theorem cookieAttrs_no_semi {c : Cookie} (h : cookieWF c) :
    ∀ a ∈ cookieAttrs c, ';' ∉ a := by
  obtain ⟨cn, cv, cs, cho, cp, cd, ca⟩ := c
  obtain ⟨h1, h2, h3, h4⟩ := h
  intro a ha
  simp only [cookieAttrs, List.mem_append] at ha
  rcases ha with (((ha | ha) | ha) | ha) | ha
  · rw [mem_boolAttr ha]; decide
  · rw [mem_boolAttr ha]; decide
  · obtain ⟨p, hp, rfl⟩ := mem_optAttr ha
    rw [hp] at h3
    simp only [List.mem_append, List.mem_cons, not_or]
    exact ⟨by decide, by decide, h3⟩
  · obtain ⟨d, hd, rfl⟩ := mem_optAttr ha
    rw [hd] at h4
    simp only [List.mem_append, List.mem_cons, not_or]
    exact ⟨by decide, by decide, h4⟩
  · obtain ⟨v, hv, rfl⟩ := mem_optAttr ha
    obtain ⟨n, _, rfl⟩ := Option.map_eq_some'.mp hv
    simp only [List.mem_append, List.mem_cons, not_or]
    exact ⟨by decide, by decide, semicolon_not_mem_natToChars n⟩

theorem cookieApplyAttr_secure (c : Cookie) :
    cookieApplyAttr c secureChars = some { c with secure := true } := by
  unfold cookieApplyAttr
  rw [if_pos rfl]

theorem cookieApplyAttr_httponly (c : Cookie) :
    cookieApplyAttr c httponlyChars = some { c with httponly := true } := by
  unfold cookieApplyAttr
  rw [if_neg (by decide), if_pos rfl]

theorem cookieApplyAttr_path (c : Cookie) (p : Str) :
    cookieApplyAttr c (pathChars ++ '=' :: p) = some { c with path := some p } := by
  unfold cookieApplyAttr
  rw [if_neg (by intro h; injection h with h1 _; exact absurd h1 (by decide)),
    if_neg (by intro h; injection h with h1 _; exact absurd h1 (by decide))]
  rw [dropUntil_append _ (by decide), takeUntil_append _ (by decide)]
  rw [if_neg (List.cons_ne_nil _ _)]
  simp only [List.tail_cons]
  simp

theorem cookieApplyAttr_domain (c : Cookie) (d : Str) :
    cookieApplyAttr c (domainChars ++ '=' :: d) = some { c with domain := some d } := by
  unfold cookieApplyAttr
  rw [if_neg (by intro h; injection h with h1 _; exact absurd h1 (by decide)),
    if_neg (by intro h; injection h with h1 _; exact absurd h1 (by decide))]
  rw [dropUntil_append _ (by decide), takeUntil_append _ (by decide)]
  rw [if_neg (List.cons_ne_nil _ _)]
  simp only [List.tail_cons]
  rw [if_neg (by decide)]
  simp

theorem cookieApplyAttr_maxAge (c : Cookie) (n : Nat) :
    cookieApplyAttr c (maxAgeChars ++ '=' :: natToChars n)
      = some { c with maxAge := some n } := by
  unfold cookieApplyAttr
  rw [if_neg (by intro h; injection h with h1 _; exact absurd h1 (by decide)),
    if_neg (by intro h; injection h with h1 _; exact absurd h1 (by decide))]
  rw [dropUntil_append _ (by decide), takeUntil_append _ (by decide)]
  rw [if_neg (List.cons_ne_nil _ _)]
  simp only [List.tail_cons]
  rw [if_neg (by decide), if_neg (by decide)]
  simp [charsToNat?_natToChars]

theorem cookieParseAttrs_join {l : List Str} (hl : ∀ a ∈ l, ';' ∉ a) (c : Cookie) :
    cookieParseAttrs (joinAttrs l) c = l.foldlM cookieApplyAttr c := by
  induction l generalizing c with
  | nil => simp [joinAttrs, cookieParseAttrs]
  | cons a l ih =>
    have ha : ';' ∉ a := hl a (by simp)
    have hl' : ∀ b ∈ l, ';' ∉ b := fun b hb => hl b (by simp [hb])
    have hshape := joinAttrs_shape l
    simp only [joinAttrs]
    simp only [cookieParseAttrs]
    rw [takeUntil_append_head _ ha hshape, dropUntil_append_head _ ha hshape]
    rw [List.foldlM_cons]
    cases hap : cookieApplyAttr c a with
    | none => simp
    | some c' => simp [ih hl']

theorem cookieApply_attrs (cn cv : Str) (cs ch : Bool) (cp cd : Option Str) (ca : Option Nat) :
    (cookieAttrs ⟨cn, cv, cs, ch, cp, cd, ca⟩).foldlM cookieApplyAttr
      ⟨cn, cv, false, false, none, none, none⟩ = some ⟨cn, cv, cs, ch, cp, cd, ca⟩ := by
  cases cs <;> cases ch <;> cases cp <;> cases cd <;> cases ca <;>
    simp [cookieAttrs, boolAttr, optAttr, cookieApplyAttr_secure, cookieApplyAttr_httponly,
      cookieApplyAttr_path, cookieApplyAttr_domain, cookieApplyAttr_maxAge]

theorem cookieParse_toString {c : Cookie} (h : cookieWF c) :
    cookieParse (cookieToString c) = some c := by
  have hattrs := cookieAttrs_no_semi h
  obtain ⟨h1, h2, _, _⟩ := h
  have hshape := joinAttrs_shape (cookieAttrs c)
  unfold cookieToString cookieParse
  rw [takeUntil_append _ h1, dropUntil_append _ h1]
  rw [if_neg (List.cons_ne_nil _ _)]
  simp only [List.tail_cons]
  rw [takeUntil_append_head _ h2 hshape, dropUntil_append_head _ h2 hshape]
  rw [cookieParseAttrs_join hattrs]
  obtain ⟨cn, cv, cs, ch, cp, cd, ca⟩ := c
  exact cookieApply_attrs cn cv cs ch cp cd ca

/-! ### The wrapper types (`src/lib.rs` lines 83–99, 204–217, 266–288) -/

/-- A wrapper to deserialize Hyper types (`De<T>`); values of this type are
only produced by the decode operations. -/
structure De (α : Type) where
  val : α
deriving DecidableEq

/-- Consumes the wrapper, returning the deserialized value
(`De::into_inner`). -/
def De.intoInner {α : Type} (d : De α) : α := d.val

/-- The convenience wrapper (`Serde<T>`), owning its value. -/
structure Serde (α : Type) where
  val : α
deriving DecidableEq

/-! ### The header collection

Modelled from the spec (§2, §3): hyper's `Headers` is "an ordered mapping of
name → sequence of raw byte-string values", embedded as an association list in
iteration order with at most one entry per name.  Raw values are uninterpreted
byte strings. -/

/-- A raw header value: an uninterpreted byte string. -/
abbrev ByteStr := List (Fin 256)

/-- The header collection: name-keyed mapping to lists of raw values. -/
abbrev Headers := List (Str × List ByteStr)

/-- Modelled from the spec: `Headers::set_raw` — inserts the given value list
under the name into the name-keyed mapping, replacing the values of an
existing entry with that name (hyper 0.9's `HashMap::insert`). -/
def setRaw : Headers → Str → List ByteStr → Headers
  | [], name, value => [(name, value)]
  | (n, v) :: rest, name, value =>
    if n = name then (name, value) :: rest else (n, v) :: setRaw rest name value

/-- Modelled from the spec: `Headers::get_raw` — all raw values stored for a
name, or `none` when the name is absent. -/
def getRaw : Headers → Str → Option (List ByteStr)
  | [], _ => none
  | (n, v) :: rest, name => if n = name then some v else getRaw rest name

/-- The header names of a collection, in iteration order. -/
def headerNames (h : Headers) : List Str := h.map Prod.fst

/-- Well-formedness of a header collection: one entry per name (what every
collection built through the underlying map-backed type satisfies). -/
def headersWF (h : Headers) : Prop := (headerNames h).Nodup

instance : DecidablePred headersWF := fun h =>
  inferInstanceAs (Decidable (headerNames h).Nodup)

theorem getRaw_isSome_of_mem {h : Headers} {e : Str × List ByteStr} (hm : e ∈ h) :
    (getRaw h e.1).isSome = true := by
  induction h with
  | nil => simp at hm
  | cons f rest ih =>
    rcases List.mem_cons.mp hm with rfl | hm'
    · simp [getRaw]
    · by_cases hf : f.1 = e.1 <;> simp [getRaw, hf, ih hm']

theorem getRaw_entry {h : Headers} (hnd : headersWF h) :
    ∀ e ∈ h, getRaw h e.1 = some e.2 := by
  induction h with
  | nil => simp
  | cons f rest ih =>
    simp only [headersWF, headerNames, List.map_cons, List.nodup_cons] at hnd
    intro e he
    rcases List.mem_cons.mp he with rfl | hm'
    · simp [getRaw]
    · have hne : f.1 ≠ e.1 := by
        intro hf
        exact hnd.1 (hf ▸ List.mem_map_of_mem Prod.fst hm')
      simp only [getRaw, if_neg hne]
      exact ih hnd.2 e hm'

theorem setRaw_fresh {h : Headers} {n : Str} {v : List ByteStr}
    (hn : getRaw h n = none) : setRaw h n v = h ++ [(n, v)] := by
  induction h with
  | nil => rfl
  | cons f rest ih =>
    simp only [getRaw] at hn
    by_cases hf : f.1 = n
    · rw [if_pos hf] at hn; exact absurd hn (by simp)
    · rw [if_neg hf] at hn
      simp only [setRaw, if_neg hf, List.cons_append, ih hn]

theorem getRaw_append_none {acc : Headers} {n m : Str} {v : List ByteStr}
    (h1 : getRaw acc m = none) (h2 : n ≠ m) :
    getRaw (acc ++ [(n, v)]) m = none := by
  induction acc with
  | nil => simp [getRaw, h2]
  | cons f rest ih =>
    simp only [getRaw] at h1 ⊢
    by_cases hf : f.1 = m
    · rw [if_pos hf] at h1; exact absurd h1 (by simp)
    · rw [if_neg hf] at h1 ⊢
      exact ih h1

/-! ### Serialization (`Serialize` impls, `src/lib.rs` lines 219–264) -/

/-- Tokens of one raw byte value inside its sequence: separator then `u8`. -/
def serBytesBody : ByteStr → List Token
  | [] => [Token.seqEnd]
  | b :: bs => Token.seqSep :: Token.int b.val :: serBytesBody bs

/-- Tokens of one raw byte string: a length-hinted sequence of bytes. -/
def serBytes (bs : ByteStr) : List Token :=
  Token.seqStart (some bs.length) :: serBytesBody bs

/-- Body tokens of a list of raw byte strings. -/
def serRawValuesBody : List ByteStr → List Token
  | [] => [Token.seqEnd]
  | v :: vs => Token.seqSep :: (serBytes v ++ serRawValuesBody vs)

/-- Tokens of a list of raw byte strings: a length-hinted sequence. -/
def serRawValues (vs : List ByteStr) : List Token :=
  Token.seqStart (some vs.length) :: serRawValuesBody vs

/-- The per-entry tokens of the header map encoding, using each entry's own
stored values, closed by the map-end token. -/
def headersEntries : Headers → List Token
  | [] => [Token.mapEnd]
  | e :: rest => Token.mapSep :: Token.str e.1 :: (serRawValues e.2 ++ headersEntries rest)

/-- The entry loop of `Ser<'a, Headers>::serialize`: iterate the collection;
for each entry emit its name and the value returned by looking the name up in
the whole collection (`self.0.get_raw(name).unwrap()` — the `none` case
models the unwrap's panic). -/
def serHeadersBody (full : Headers) : Headers → Option (List Token)
  | [] => some [Token.mapEnd]
  | e :: rest =>
    match getRaw full e.1 with
    | none => none
    | some value =>
      (serHeadersBody full rest).map
        (fun tl => Token.mapSep :: Token.str e.1 :: (serRawValues value ++ tl))

/-- `Ser<'a, Headers>::serialize`: a map started with a length hint of
`self.0.len()` (the number of entries of the collection), the entries, and
the map-end token. -/
def serHeaders (h : Headers) : Option (List Token) :=
  (serHeadersBody h h).map (fun body => Token.mapStart (some h.length) :: body)

/-- `Ser<'a, Method>::serialize`: the method's canonical name as a string. -/
def serMethod (m : Method) : List Token := [Token.str (methodAsRef m)]

/-- The `mime` crate's `Serialize` (modelled from the spec §4.3): the MIME
value's canonical textual form as a single string token. -/
def serMime (m : Mime) : List Token := [Token.str (mimeFormat m)]

/-- `Ser<'a, ContentType>::serialize`: delegates to the wrapped MIME value. -/
def serContentType (v : ContentType) : List Token := serMime v.mime

/-- `Ser<'a, Cookie>::serialize`: the cookie's canonical string. -/
def serCookie (c : Cookie) : List Token := [Token.str (cookieToString c)]

/-- The raw status line: hyper's `RawStatus(u16, Cow<str>)` — a numeric code
and a reason phrase. -/
structure RawStatus where
  code : Fin 65536
  reason : Str
deriving DecidableEq

/-- `Ser<'a, RawStatus>::serialize`: the `(code, reason)` pair as a 2-tuple. -/
def serRawStatus (v : RawStatus) : List Token :=
  [Token.tupleStart 2, Token.tupleSep, Token.int v.code.val,
   Token.tupleSep, Token.str v.reason, Token.tupleEnd]

/-! ### Deserialization (`Deserialize` impls, `src/lib.rs` lines 101–192) -/

/-- Message of the framework's out-of-range `u8` error. -/
def u8Msg : Str := "expected u8".data

/-- Message of the framework's out-of-range `u16` error. -/
def u16Msg : Str := "expected u16".data

/-- Decode the elements of a byte sequence (the framework's `Vec<u8>` visitor
loop; modelled from the spec §4.2: byte tokens out of the `u8` range fail
with an `InvalidValue` kind). -/
def deBytesLoop : List Token → ByteStr → Except Err (ByteStr × List Token)
  | Token.seqEnd :: rest, acc => .ok (acc, rest)
  | Token.seqSep :: Token.int n :: rest, acc =>
    if h : 0 ≤ n ∧ n < 256 then deBytesLoop rest (acc ++ [⟨n.toNat, by omega⟩])
    else .error (.invalidValue u8Msg)
  | _, _ => .error .invalidType

theorem deBytesLoop_le (toks : List Token) (acc : ByteStr) :
    ∀ vs rest, deBytesLoop toks acc = .ok (vs, rest) → rest.length ≤ toks.length := by
  induction toks, acc using deBytesLoop.induct with
  | case1 rest acc =>
    intro vs r h
    simp only [deBytesLoop, Except.ok.injEq, Prod.mk.injEq] at h
    simp [← h.2]
  | case2 n rest acc hn ih =>
    intro vs r h
    simp only [deBytesLoop, dif_pos hn] at h
    have := ih vs r h
    simp only [List.length_cons]
    omega
  | case3 n rest acc hn =>
    intro vs r h
    simp only [deBytesLoop, dif_neg hn] at h
    exact absurd h (by simp)
  | case4 toks acc h1 h2 =>
    intro vs r h
    rw [deBytesLoop.eq_3 toks acc h1 h2] at h
    exact absurd h (by simp)

/-- Decode the elements of a `Vec<Vec<u8>>` sequence: each element is itself
a byte sequence. -/
def deRawValuesLoop : List Token → List ByteStr → Except Err (List ByteStr × List Token)
  | Token.seqEnd :: rest, acc => .ok (acc, rest)
  | Token.seqSep :: Token.seqStart _ :: rest, acc =>
    (match hb : deBytesLoop rest [] with
     | .ok (bs, rest') => deRawValuesLoop rest' (acc ++ [bs])
     | .error e => .error e)
  | _, _ => .error .invalidType
termination_by toks _ => toks.length
decreasing_by
  have := deBytesLoop_le rest [] bs rest' hb
  simp only [List.length_cons]
  omega

theorem deRawValuesLoop_le (toks : List Token) (acc : List ByteStr) :
    ∀ vs rest, deRawValuesLoop toks acc = .ok (vs, rest) → rest.length ≤ toks.length := by
  induction toks, acc using deRawValuesLoop.induct with
  | case1 rest acc =>
    intro vs r h
    simp only [deRawValuesLoop, Except.ok.injEq, Prod.mk.injEq] at h
    simp [← h.2]
  | case2 l rest acc bs rest' hb ih =>
    intro vs r h
    simp only [deRawValuesLoop] at h
    rw [hb] at h
    have hle := deBytesLoop_le rest [] bs rest' hb
    have := ih vs r h
    simp only [List.length_cons]
    omega
  | case3 l rest acc e hb =>
    intro vs r h
    simp only [deRawValuesLoop] at h
    rw [hb] at h
    exact absurd h (by simp)
  | case4 toks acc h1 h2 =>
    intro vs r h
    rw [deRawValuesLoop.eq_3 toks acc h1 h2] at h
    exact absurd h (by simp)

/-- The entry loop of `HeadersVisitor::visit_map` (`src/lib.rs` lines
146–156): read `(String, Vec<Vec<u8>>)` entries until the map ends, storing
each into the collection with `set_raw`. -/
def deHeadersLoop : List Token → Headers → Except Err (Headers × List Token)
  | Token.mapEnd :: rest, acc => .ok (acc, rest)
  | Token.mapSep :: Token.str k :: Token.seqStart _ :: rest, acc =>
    (match hv : deRawValuesLoop rest [] with
     | .ok (vs, rest') => deHeadersLoop rest' (setRaw acc k vs)
     | .error e => .error e)
  | _, _ => .error .invalidType
termination_by toks _ => toks.length
decreasing_by
  have := deRawValuesLoop_le rest [] vs rest' hv
  simp only [List.length_cons]
  omega

/-- `Deserialize for De<Headers>` (`src/lib.rs` lines 131–161): a unit token
yields a fresh empty collection (`visit_unit`), a map token enters the entry
loop (`visit_map`). -/
def deHeaders : List Token → Except Err (De Headers × List Token)
  | Token.unit :: rest => .ok (De.mk [], rest)
  | Token.mapStart _ :: rest =>
    (deHeadersLoop rest []).map (fun p => (De.mk p.1, p.2))
  | _ => .error .invalidType

/-- `Deserialize for De<Method>` (`src/lib.rs` lines 163–183): read a string,
parse it with the method type's parser, and turn a parse error into an
`invalid_value` error carrying the parse error's message. -/
def deMethod : List Token → Except Err (De Method × List Token)
  | Token.str s :: rest =>
    (match methodParse s with
     | .ok m => .ok (De.mk m, rest)
     | .error e => .error (.invalidValue e))
  | _ => .error .invalidType

/-- Message of the MIME decode error (modelled from the spec §4.3). -/
def mimeErrMsg : Str := "could not parse mime type".data

/-- The `mime` crate's `Deserialize` (modelled from the spec §4.3): read a
string and parse it as a MIME type. -/
def deMime : List Token → Except Err (Mime × List Token)
  | Token.str s :: rest =>
    (match mimeParse s with
     | some m => .ok (m, rest)
     | none => .error (.custom mimeErrMsg))
  | _ => .error .invalidType

/-- `Deserialize for De<ContentType>` (`src/lib.rs` lines 101–107):
`Mime::deserialize(deserializer).map(ContentType).map(De)`. -/
def deContentType (toks : List Token) : Except Err (De ContentType × List Token) :=
  (deMime toks).map (fun p => (De.mk (ContentType.mk p.1), p.2))

/-- Message of the cookie decode error (`src/lib.rs` line 122). -/
def cookieErrMsg : Str := "could not deserialize cookie".data

/-- `Deserialize for De<Cookie>` (`src/lib.rs` lines 109–129): read a string,
parse it with the cookie type's own parser, and map a parse failure to a
custom error with a fixed message. -/
def deCookie : List Token → Except Err (De Cookie × List Token)
  | Token.str s :: rest =>
    (match cookieParse s with
     | some c => .ok (De.mk c, rest)
     | none => .error (.custom cookieErrMsg))
  | _ => .error .invalidType

/-- `Deserialize for De<RawStatus>` (`src/lib.rs` lines 185–192): read a
`(u16, Cow<str>)` 2-tuple and rebuild the status value.  The `u16` range
check is the framework's (modelled from the spec §4.4: an out-of-range code
fails with an `InvalidValue` kind). -/
def deRawStatus : List Token → Except Err (De RawStatus × List Token)
  | Token.tupleStart _ :: Token.tupleSep :: Token.int n :: rest =>
    if h : 0 ≤ n ∧ n < 65536 then
      (match rest with
       | Token.tupleSep :: Token.str r :: Token.tupleEnd :: rest' =>
         .ok (De.mk ⟨⟨n.toNat, by omega⟩, r⟩, rest')
       | _ => .error .invalidType)
    else .error (.invalidValue u16Msg)
  | _ => .error .invalidType

/-! ### The supported-type family and the public entry points
(`src/lib.rs` lines 77–81, 198–202, 290–308) -/

/-- The five supported types. -/
inductive SupportedType
  | contentType | cookie | headers | method | rawStatus
deriving DecidableEq

/-- The Lean type of each supported type's values. -/
def Val : SupportedType → Type
  | .contentType => ContentType
  | .cookie => Cookie
  | .headers => Headers
  | .method => Method
  | .rawStatus => RawStatus

/-- The `Deserialize` impl of `De<T>` for each supported `T`. -/
def deDe : (t : SupportedType) → List Token → Except Err (De (Val t) × List Token)
  | .contentType => deContentType
  | .cookie => deCookie
  | .headers => deHeaders
  | .method => deMethod
  | .rawStatus => deRawStatus

/-- The `Serialize` impl of `Ser<'a, T>` for each supported `T` (applied to
the borrowed value); `none` models a panic, which only the headers
serializer's unwrap could produce. -/
def serSer : (t : SupportedType) → Val t → Option (List Token)
  | .contentType => fun v => some (serContentType v)
  | .cookie => fun v => some (serCookie v)
  | .headers => serHeaders
  | .method => fun v => some (serMethod v)
  | .rawStatus => fun v => some (serRawStatus v)

/-- The free function `deserialize` (`src/lib.rs` lines 77–81):
`De::deserialize(deserializer).map(De::into_inner)`. -/
def deserialize (t : SupportedType) (toks : List Token) : Except Err (Val t × List Token) :=
  (deDe t toks).map (fun p => (p.1.intoInner, p.2))

/-- The free function `serialize` (`src/lib.rs` lines 198–202):
`Ser::new(value).serialize(serializer)`. -/
def serialize (t : SupportedType) (v : Val t) : Option (List Token) :=
  serSer t v

/-- `Deserialize for Serde<T>` (`src/lib.rs` lines 290–298):
`De::deserialize(deserializer).map(De::into_inner).map(Serde)`. -/
def serdeDeserialize (t : SupportedType) (toks : List Token) :
    Except Err (Serde (Val t) × List Token) :=
  (deDe t toks).map (fun p => (Serde.mk p.1.intoInner, p.2))

/-- `Serialize for Serde<T>` (`src/lib.rs` lines 300–308):
`Ser(&self.0).serialize(serializer)`. -/
def serdeSerialize (t : SupportedType) (s : Serde (Val t)) : Option (List Token) :=
  serSer t s.val

/-- Per-type well-formedness used by the round-trip law: the conditions under
which the external types' own formatters and parsers are inverse. -/
def ValWF : (t : SupportedType) → Val t → Prop
  | .contentType => fun v => mimeWF v.mime
  | .cookie => cookieWF
  | .headers => headersWF
  | .method => methodWF
  | .rawStatus => fun _ => True

/-! ### Round-trip lemmas -/

theorem deBytesLoop_ser (bs : ByteStr) : ∀ (acc : ByteStr) (rest : List Token),
    deBytesLoop (serBytesBody bs ++ rest) acc = .ok (acc ++ bs, rest) := by
  induction bs with
  | nil => intro acc rest; simp [serBytesBody, deBytesLoop]
  | cons b bs ih =>
    intro acc rest
    have hcond : (0 : Int) ≤ (b.val : Int) ∧ ((b.val : Int)) < 256 :=
      ⟨Int.natCast_nonneg _, by exact_mod_cast b.isLt⟩
    simp only [serBytesBody, List.cons_append, deBytesLoop, dif_pos hcond]
    simp only [Int.toNat_natCast, Fin.eta, List.append_eq]
    rw [ih (acc ++ [b]) rest]
    simp

theorem deRawValuesLoop_ser (vs : List ByteStr) : ∀ (acc : List ByteStr) (rest : List Token),
    deRawValuesLoop (serRawValuesBody vs ++ rest) acc = .ok (acc ++ vs, rest) := by
  induction vs with
  | nil => intro acc rest; simp [serRawValuesBody, deRawValuesLoop]
  | cons v vs ih =>
    intro acc rest
    simp only [serRawValuesBody, serBytes, List.cons_append, List.append_assoc]
    simp only [deRawValuesLoop]
    rw [deBytesLoop_ser v [] (serRawValuesBody vs ++ rest)]
    simp only [List.nil_append]
    exact (ih (acc ++ [v]) rest).trans (by simp)

theorem serHeadersBody_entries (full : Headers) :
    ∀ l : Headers, (∀ e ∈ l, getRaw full e.1 = some e.2) →
      serHeadersBody full l = some (headersEntries l) := by
  intro l
  induction l with
  | nil => intro _; rfl
  | cons e rest ih =>
    intro hl
    have he := hl e (by simp)
    simp only [serHeadersBody, he]
    rw [ih (fun f hf => hl f (by simp [hf]))]
    rfl

theorem serHeadersBody_isSome (full : Headers) :
    ∀ l : Headers, (∀ e ∈ l, (getRaw full e.1).isSome = true) →
      (serHeadersBody full l).isSome = true := by
  intro l
  induction l with
  | nil => intro _; rfl
  | cons e rest ih =>
    intro hl
    obtain ⟨v, hv⟩ := Option.isSome_iff_exists.mp (hl e (by simp))
    obtain ⟨tl, htl⟩ :=
      Option.isSome_iff_exists.mp (ih (fun f hf => hl f (by simp [hf])))
    simp [serHeadersBody, hv, htl]

theorem serHeaders_wf {h : Headers} (hwf : headersWF h) :
    serHeaders h = some (Token.mapStart (some h.length) :: headersEntries h) := by
  unfold serHeaders
  rw [serHeadersBody_entries h h (getRaw_entry hwf)]
  rfl

theorem deHeadersLoop_entries :
    ∀ (l acc : Headers) (rest : List Token),
      (∀ e ∈ l, getRaw acc e.1 = none) → headersWF l →
      deHeadersLoop (headersEntries l ++ rest) acc = .ok (acc ++ l, rest) := by
  intro l
  induction l with
  | nil => intro acc rest _ _; simp [headersEntries, deHeadersLoop]
  | cons e l ih =>
    intro acc rest hfresh hnd
    simp only [headersWF, headerNames, List.map_cons, List.nodup_cons] at hnd
    simp only [headersEntries, serRawValues, List.cons_append, List.append_assoc]
    simp only [deHeadersLoop]
    rw [deRawValuesLoop_ser e.2 [] (headersEntries l ++ rest)]
    simp only [List.nil_append]
    have hset : setRaw acc e.1 e.2 = acc ++ [e] := by
      rw [setRaw_fresh (hfresh e (by simp))]
    rw [hset]
    have hfresh' : ∀ f ∈ l, getRaw (acc ++ [e]) f.1 = none := by
      intro f hf
      have hne : e.1 ≠ f.1 := by
        intro hc
        exact hnd.1 (hc ▸ List.mem_map_of_mem Prod.fst hf)
      obtain ⟨en, ev⟩ := e
      exact getRaw_append_none (hfresh f (by simp [hf])) hne
    rw [ih (acc ++ [e]) rest hfresh' hnd.2]
    simp

theorem deHeaders_serHeaders {h : Headers} (hwf : headersWF h) :
    deHeaders ((serHeaders h).getD []) = .ok (De.mk h, []) := by
  rw [serHeaders_wf hwf]
  simp only [Option.getD_some, deHeaders]
  have hloop := deHeadersLoop_entries h [] [] (by intro e _; rfl) hwf
  rw [List.append_nil] at hloop
  rw [hloop]
  rfl

theorem deHeaders_two_entries (n : Str) (v1 v2 : List ByteStr) :
    deHeaders ([Token.mapStart none, Token.mapSep, Token.str n] ++ serRawValues v1
      ++ [Token.mapSep, Token.str n] ++ serRawValues v2 ++ [Token.mapEnd])
      = .ok (De.mk [(n, v2)], []) := by
  simp only [serRawValues, List.cons_append, List.append_assoc, List.nil_append]
  simp only [deHeaders, deHeadersLoop]
  rw [deRawValuesLoop_ser v1 []]
  simp only [List.nil_append]
  simp only [deHeadersLoop]
  rw [deRawValuesLoop_ser v2 []]
  simp only [List.nil_append]
  simp [setRaw, deHeadersLoop, Except.map]

/-! ### The claims -/

/-- Claim C1: for every supported type and every (well-formed) value,
serializing and then deserializing the produced token stream yields the value
back, exactly: the encode side succeeds and the decode of its output returns
the original value with no tokens left over.  For headers this equality of
association lists gives equality of the name set and of the per-name value
sequences. -/
theorem c1_round_trip (t : SupportedType) (v : Val t) (hwf : ValWF t v) :
    (serialize t v).isSome = true ∧
    deserialize t ((serialize t v).getD []) = .ok (v, []) := by
  cases t with
  | contentType =>
    refine ⟨rfl, ?_⟩
    simp only [serialize, serSer, Option.getD_some, deserialize, deDe, deContentType,
      serContentType, serMime, deMime, mimeParse_format hwf]
    rfl
  | cookie =>
    refine ⟨rfl, ?_⟩
    simp only [serialize, serSer, Option.getD_some, deserialize, deDe, deCookie,
      serCookie, cookieParse_toString hwf]
    rfl
  | headers =>
    refine ⟨?_, ?_⟩
    · show (serHeaders v).isSome = true
      rw [serHeaders_wf hwf]
      rfl
    · show (deHeaders ((serHeaders v).getD [])).map (fun p => (p.1.intoInner, p.2))
        = .ok (v, [])
      rw [deHeaders_serHeaders hwf]
      rfl
  | method =>
    refine ⟨rfl, ?_⟩
    simp only [serialize, serSer, Option.getD_some, deserialize, deDe, deMethod,
      serMethod, methodParse_asRef hwf]
    rfl
  | rawStatus =>
    obtain ⟨vc, vr⟩ := v
    refine ⟨rfl, ?_⟩
    simp only [serialize, serSer, Option.getD_some, deserialize, deDe, serRawStatus,
      deRawStatus]
    rw [dif_pos ⟨Int.natCast_nonneg _,
      (by exact_mod_cast vc.isLt : ((vc.val : Int)) < 65536)⟩]
    simp [De.intoInner, Except.map]

/-- Witness for C1 at the PUT method. -/
theorem c1_round_trip_witness :
    (serialize .method Method.put).isSome = true ∧
    deserialize .method ((serialize .method Method.put).getD []) = .ok (Method.put, []) :=
  c1_round_trip .method Method.put (by trivial)

/-- Claim C2 (counterexample): a header name appearing in two input map
entries does not end up with the concatenation of both entries' value
sequences — decoding stores only the second entry's values (`set_raw`
replaces). -/
theorem c2_counterexample :
    deHeaders ([Token.mapStart none, Token.mapSep, Token.str "X".data]
        ++ serRawValues [[(49 : Fin 256)]] ++ [Token.mapSep, Token.str "X".data]
        ++ serRawValues [[(50 : Fin 256)]] ++ [Token.mapEnd])
      = .ok (De.mk [("X".data, [[(50 : Fin 256)]])], []) ∧
    [[(50 : Fin 256)]] ≠ [[(49 : Fin 256)], [(50 : Fin 256)]] :=
  ⟨deHeaders_two_entries "X".data [[(49 : Fin 256)]] [[(50 : Fin 256)]], by decide⟩

/-- Claim C2 (amended): during header-collection decode, each (name, value)
entry is stored into the collection with `set_raw`, which replaces any values
already stored under that name; a name appearing in two input map entries
ends up with exactly the second entry's value sequence. -/
theorem c2_amended (n : Str) (v1 v2 : List ByteStr) :
    deHeaders ([Token.mapStart none, Token.mapSep, Token.str n] ++ serRawValues v1
        ++ [Token.mapSep, Token.str n] ++ serRawValues v2 ++ [Token.mapEnd])
      = .ok (De.mk [(n, v2)], []) ∧
    getRaw [(n, v2)] n = some v2 :=
  ⟨deHeaders_two_entries n v1 v2, by simp [getRaw]⟩

/-- Claim C3: header-collection encode emits one map entry per entry of the
collection (one per distinct name, the names being distinct), each entry's
value being exactly what the collection's own get-all-raw-values accessor
returns for that name, and the declared map length is the number of distinct
header names. -/
theorem c3_header_encode_shape (h : Headers) (hwf : headersWF h) :
    serHeaders h
      = some (Token.mapStart (some ((headerNames h).dedup.length)) :: headersEntries h)
    ∧ (∀ e ∈ h, getRaw h e.1 = some e.2) ∧ (headerNames h).Nodup := by
  have hlen : (headerNames h).dedup.length = h.length := by
    rw [List.Nodup.dedup hwf]
    simp [headerNames]
  exact ⟨by rw [hlen]; exact serHeaders_wf hwf, getRaw_entry hwf, hwf⟩

/-- Concrete two-entry header collection for the C3 witness. -/
def hdrsEx : Headers := [("A".data, [[(1 : Fin 256)]]), ("B".data, [])]

/-- Witness for C3 on a concrete two-name collection. -/
theorem c3_witness :
    serHeaders hdrsEx
      = some (Token.mapStart (some ((headerNames hdrsEx).dedup.length)) :: headersEntries hdrsEx)
    ∧ getRaw hdrsEx "A".data = some [[(1 : Fin 256)]] :=
  ⟨(c3_header_encode_shape hdrsEx (by decide)).1,
   (c3_header_encode_shape hdrsEx (by decide)).2.1 ("A".data, [[(1 : Fin 256)]]) (by decide)⟩

/-- Claim C4: status-line decode fails with an `InvalidValue`-kind error
whenever the numeric code read from the input is outside the `u16` range of
the underlying status type, and succeeds for every in-range code. -/
theorem c4_status_range (n : Int) (r : Str) (rest : List Token) :
    ((0 ≤ n ∧ n < 65536) →
      deRawStatus (Token.tupleStart 2 :: Token.tupleSep :: Token.int n :: Token.tupleSep
          :: Token.str r :: Token.tupleEnd :: rest)
        = .ok (De.mk ⟨⟨n.toNat % 65536, Nat.mod_lt _ (by norm_num)⟩, r⟩, rest)) ∧
    ((n < 0 ∨ 65536 ≤ n) →
      deRawStatus (Token.tupleStart 2 :: Token.tupleSep :: Token.int n :: Token.tupleSep
          :: Token.str r :: Token.tupleEnd :: rest)
        = .error (.invalidValue u16Msg)) := by
  constructor
  · intro hin
    have hmod : n.toNat % 65536 = n.toNat := Nat.mod_eq_of_lt (by omega)
    simp only [deRawStatus, dif_pos hin]
    simp [hmod]
  · intro hout
    simp only [deRawStatus]
    rw [dif_neg (by omega)]

/-- Witness for C4: code 70000 is rejected with `InvalidValue`, code 200 is
accepted. -/
theorem c4_witness :
    deRawStatus [Token.tupleStart 2, Token.tupleSep, Token.int 70000, Token.tupleSep,
        Token.str "OK".data, Token.tupleEnd] = .error (.invalidValue u16Msg) ∧
    deRawStatus [Token.tupleStart 2, Token.tupleSep, Token.int 200, Token.tupleSep,
        Token.str "OK".data, Token.tupleEnd]
      = .ok (De.mk ⟨⟨(200 : Int).toNat % 65536, Nat.mod_lt _ (by norm_num)⟩, "OK".data⟩, []) :=
  ⟨(c4_status_range 70000 "OK".data []).2 (Or.inr (by decide)),
   (c4_status_range 200 "OK".data []).1 ⟨by decide, by decide⟩⟩

/-- Claim C5: the status-line codec in tuple form is an exact pair mapping —
encoding a status value with code `c` and reason `r` emits the 2-tuple
`(c, r)` (code first, reason second), and decoding that 2-tuple yields the
status value back. -/
theorem c5_status_tuple (c : Fin 65536) (r : Str) (rest : List Token) :
    serRawStatus ⟨c, r⟩ = [Token.tupleStart 2, Token.tupleSep, Token.int c.val,
      Token.tupleSep, Token.str r, Token.tupleEnd] ∧
    deRawStatus ([Token.tupleStart 2, Token.tupleSep, Token.int c.val,
        Token.tupleSep, Token.str r, Token.tupleEnd] ++ rest)
      = .ok (De.mk ⟨c, r⟩, rest) := by
  refine ⟨rfl, ?_⟩
  simp only [List.cons_append, List.nil_append, deRawStatus]
  rw [dif_pos ⟨Int.natCast_nonneg _, (by exact_mod_cast c.isLt : ((c.val : Int)) < 65536)⟩]
  simp

/-- Claim C6: method decode reads a string and delegates to the method
parser, mapping a parse error to an `invalid_value` error carrying the parse
error's message — so decode fails exactly when the parse fails; the parser
rejects only the empty string and accepts every other token (standard names
and extension tokens). -/
theorem c6_method_decode (s : Str) (rest : List Token) :
    deMethod (Token.str s :: rest)
      = (match methodParse s with
         | .ok m => .ok (De.mk m, rest)
         | .error e => .error (Err.invalidValue e)) ∧
    (s = [] → methodParse s = .error invalidMethodMsg) ∧
    (s ≠ [] → ∃ m, methodParse s = .ok m) := by
  refine ⟨rfl, ?_, ?_⟩
  · intro h
    subst h
    rfl
  · intro h
    unfold methodParse
    rw [if_neg h]
    cases hf : standardMethods.find? (fun p => p.1 = s) with
    | none => exact ⟨.extension s, rfl⟩
    | some p => exact ⟨p.2, rfl⟩

/-- Witness for C6: `"PUT"` decodes to the PUT method, the empty string is
rejected by the parser. -/
theorem c6_witness :
    deMethod [Token.str "PUT".data] = .ok (De.mk Method.put, []) ∧
    methodParse [] = .error invalidMethodMsg :=
  ⟨((c6_method_decode "PUT".data []).1).trans (by rfl),
   (c6_method_decode [] []).2.1 rfl⟩

/-- Claim C7: encoding an empty header collection yields exactly a map-start
token with declared length 0 followed by the map-end token, and decoding a
unit token yields an empty collection. -/
theorem c7_empty_headers :
    serHeaders [] = some [Token.mapStart (some 0), Token.mapEnd] ∧
    ∀ rest : List Token, deHeaders (Token.unit :: rest) = .ok (De.mk [], rest) :=
  ⟨rfl, fun _ => rfl⟩

/-- Claim C8: cookie decode reads a string and delegates to the cookie type's
own parser; every string the parser rejects fails with the custom-message
error, and every string it accepts decodes to the parsed cookie. -/
theorem c8_cookie_decode (s : Str) (rest : List Token) :
    deCookie (Token.str s :: rest)
      = (match cookieParse s with
         | some c => .ok (De.mk c, rest)
         | none => .error (Err.custom cookieErrMsg)) := rfl

/-- Claim C9: for every header collection, every name yielded by iterating
the collection is found by the collection's own raw-value lookup, so the
unwrap in the headers serializer is unreachable and encode always produces
a token stream. -/
theorem c9_no_panic (h : Headers) : (serHeaders h).isSome = true := by
  unfold serHeaders
  obtain ⟨b, hb⟩ := Option.isSome_iff_exists.mp
    (serHeadersBody_isSome h h (fun e he => getRaw_isSome_of_mem he))
  simp [hb]

/-- Claim C10: the public entry points agree — the free `deserialize`
function, `De<T>`'s impl followed by `into_inner`, and `Serde<T>`'s impl
followed by unwrapping all return the same result, and the free `serialize`
function, the `Ser` wrapper, and `Serde<T>`'s `Serialize` impl produce the
same output. -/
theorem c10_entry_points_agree (t : SupportedType) (toks : List Token) (v : Val t) :
    deserialize t toks = (deDe t toks).map (fun p => (p.1.intoInner, p.2)) ∧
    serdeDeserialize t toks = (deDe t toks).map (fun p => (Serde.mk p.1.intoInner, p.2)) ∧
    (serdeDeserialize t toks).map (fun p => (p.1.val, p.2)) = deserialize t toks ∧
    serialize t v = serSer t v ∧
    serdeSerialize t (Serde.mk v) = serialize t v := by
  refine ⟨rfl, rfl, ?_, rfl, rfl⟩
  cases hd : deDe t toks with
  | ok p => simp [serdeDeserialize, deserialize, hd, Except.map, De.intoInner]
  | error e => simp [serdeDeserialize, deserialize, hd, Except.map]

end HyperSerde
